import Mathlib

/-!
# Chat relay: presence bookkeeping and typing debounce

A shallow embedding of `src/server.js` (the Socket.IO event handlers, the
helper `handleUserLeave`, `getRoomUsers` and the two monitoring endpoints) and
of the typing part of `src/script.js` (`handleTyping`, `stopTyping`,
`sendMessage`).

* A JavaScript `Map` is an association list in insertion order; `set` on an
  existing key replaces the value in place, `set` on a new key appends.
* A JavaScript `Set` is a list in insertion order; `add` of a present element
  does nothing.
* The Socket.IO room table (which the repository only calls: `socket.join`,
  `io.to`, `socket.to`, and the clean-up the library performs before it fires
  `disconnect`) is a list of (connection, room) subscriptions. Socket.IO keeps
  every open socket in the room named after its own id, so an open socket `c`
  is subscribed to room `c` as well as to the rooms it joined.
* `new Date().toLocaleTimeString()` is an input of the handler that reads it.
-/

namespace Chat

/-! ## JavaScript containers -/

/-- The value stored under key `k` (`Map.prototype.get`), `none` for `undefined`. -/
def JsMap.get {K V : Type} [DecidableEq K] : List (K × V) → K → Option V
  | [], _ => none
  | (k1, v1) :: rest, k => if k1 = k then some v1 else JsMap.get rest k

/-- Whether key `k` is present (`Map.prototype.has`). -/
def JsMap.has {K V : Type} [DecidableEq K] (m : List (K × V)) (k : K) : Bool :=
  (JsMap.get m k).isSome

/-- Store `v` under `k` (`Map.prototype.set`): in place when the key exists, appended otherwise. -/
def JsMap.set {K V : Type} [DecidableEq K] : List (K × V) → K → V → List (K × V)
  | [], k, v => [(k, v)]
  | (k1, v1) :: rest, k, v =>
    if k1 = k then (k, v) :: rest else (k1, v1) :: JsMap.set rest k v

/-- Remove key `k` (`Map.prototype.delete`). -/
def JsMap.delete {K V : Type} [DecidableEq K] (m : List (K × V)) (k : K) : List (K × V) :=
  m.filter (fun e => decide (e.1 ≠ k))

/-- The keys in insertion order (`Map.prototype.keys`). -/
def JsMap.keys {K V : Type} (m : List (K × V)) : List K :=
  m.map Prod.fst

/-- Insert into a set (`Set.prototype.add`). -/
def JsSet.add {A : Type} [DecidableEq A] (s : List A) (a : A) : List A :=
  if a ∈ s then s else s ++ [a]

/-- Remove from a set (`Set.prototype.delete`). -/
def JsSet.delete {A : Type} [DecidableEq A] (s : List A) (a : A) : List A :=
  s.filter (fun x => decide (x ≠ a))

/-! ## Server data model -/

abbrev ConnId := String
abbrev RoomName := String

/-- The record stored in `users` by the `joinRoom` handler. -/
structure User where
  id : ConnId
  username : String
  room : RoomName
deriving DecidableEq, Repr

/-- One element of the list built by `getRoomUsers`. -/
structure RoomUser where
  id : ConnId
  username : String
deriving DecidableEq, Repr

/-- The events the server sends to clients. -/
inductive ServerEvent where
  | message (username : String) (message : String) (time : String)
  | userJoined (username : String) (users : List RoomUser)
  | userLeft (username : String) (users : List RoomUser)
  | roomUsers (room : RoomName) (users : List RoomUser)
  | typing (username : String)
  | stopTyping
deriving DecidableEq, Repr

/-- One `emit` call: the connections it is delivered to and the event. -/
structure Emission where
  recipients : List ConnId
  event : ServerEvent
deriving DecidableEq, Repr

/-- The two module-level maps of `server.js` and the transport's room table, which holds the
pair `(c, c)` for every open socket `c` and `(c, r)` for every room `r` that `c` joined. -/
structure ServerState where
  users : List (ConnId × User)
  rooms : List (RoomName × List ConnId)
  subs : List (ConnId × RoomName)
deriving DecidableEq, Repr

/-- The state at start-up: both maps empty, nobody subscribed. -/
def ServerState.empty : ServerState := ⟨[], [], []⟩

/-! ## Transport room table -/

/-- Subscribe connection `c` to room `r` (`socket.join(r)`). -/
def socketJoin (subs : List (ConnId × RoomName)) (c : ConnId) (r : RoomName) :
    List (ConnId × RoomName) :=
  if (c, r) ∈ subs then subs else subs ++ [(c, r)]

/-- Drop every subscription of `c`, as the transport does when `c` disconnects. -/
def socketLeaveAll (subs : List (ConnId × RoomName)) (c : ConnId) : List (ConnId × RoomName) :=
  subs.filter (fun p => decide (p.1 ≠ c))

/-- The connections in room `r` of the transport: those that joined `r` and, when `r` is the
id of an open socket, that socket. -/
def subscribers (subs : List (ConnId × RoomName)) (r : RoomName) : List ConnId :=
  (subs.filter (fun p => decide (p.2 = r))).map Prod.fst

/-- Recipients of `io.to(r).emit(...)`. -/
def ioTo (s : ServerState) (r : RoomName) : List ConnId :=
  subscribers s.subs r

/-- Recipients of `socket.to(r).emit(...)` on the socket of connection `c`. -/
def socketTo (s : ServerState) (c : ConnId) (r : RoomName) : List ConnId :=
  (subscribers s.subs r).filter (fun x => decide (x ≠ c))

/-- The state once the socket of `c` is open: the transport has put it in the room named
after its own id. Nothing changes when it is there already. -/
def socketOpen (s : ServerState) (c : ConnId) : ServerState :=
  { s with subs := socketJoin s.subs c c }

/-! ## Server functions -/

/-- The member set `rooms.get(room) || new Set()`. -/
def members (rooms : List (RoomName × List ConnId)) (room : RoomName) : List ConnId :=
  match JsMap.get rooms room with
  | some set => set
  | none => []

/-- The function `getRoomUsers(room)` of `server.js`. -/
def getRoomUsers (s : ServerState) (room : RoomName) : List RoomUser :=
  (members s.rooms room).filterMap (fun userId =>
    match JsMap.get s.users userId with
    | some user => some ⟨user.id, user.username⟩
    | none => none)

/-- The body of the `joinRoom` handler once `data` has been destructured. -/
def joinRoom (s : ServerState) (c : ConnId) (username : String) (room : RoomName)
    (time : String) : ServerState × List Emission :=
  let users1 := JsMap.set s.users c ⟨c, username, room⟩
  let subs1 := socketJoin s.subs c room
  let rooms1 := if JsMap.has s.rooms room then s.rooms else JsMap.set s.rooms room []
  let rooms2 :=
    match JsMap.get rooms1 room with
    | some set => JsMap.set rooms1 room (JsSet.add set c)
    | none => rooms1
  let s1 : ServerState := ⟨users1, rooms2, subs1⟩
  let roomUsers := getRoomUsers s1 room
  (s1,
    [ ⟨[c], .message "System" ("Welcome to " ++ room ++ ", " ++ username ++ "!") time⟩,
      ⟨socketTo s1 c room, .userJoined username roomUsers⟩,
      ⟨ioTo s1 room, .roomUsers room roomUsers⟩ ])

/-- The function `handleUserLeave(socket)` of `server.js`, for the socket of connection `c`. -/
def handleUserLeave (s : ServerState) (c : ConnId) : ServerState × List Emission :=
  match JsMap.get s.users c with
  | none => (s, [])
  | some user =>
    let username := user.username
    let room := user.room
    let rooms1 :=
      match JsMap.get s.rooms room with
      | some set =>
        let set1 := JsSet.delete set c
        let rooms0 := JsMap.set s.rooms room set1
        if set1.length = 0 then JsMap.delete rooms0 room else rooms0
      | none => s.rooms
    let users1 := JsMap.delete s.users c
    let s1 : ServerState := ⟨users1, rooms1, s.subs⟩
    let roomUsers := getRoomUsers s1 room
    (s1,
      [ ⟨socketTo s1 c room, .userLeft username roomUsers⟩,
        ⟨ioTo s1 room, .roomUsers room roomUsers⟩ ])

/-- Payload of `joinRoom`. -/
structure JoinData where
  username : String
  room : RoomName
deriving DecidableEq, Repr

/-- Payload of `chatMessage` as the client builds it; the handler reads only `message`. -/
structure ChatData where
  username : String
  message : String
  room : RoomName
  time : String
deriving DecidableEq, Repr

/-- An event of connection `c`: its socket connecting, an event received from its client, or
its socket disconnecting. A payload of `none` is `undefined`, and `time` is what the server's
clock reads when the handler runs. -/
inductive ClientEvent where
  | connection (c : ConnId)
  | joinRoom (c : ConnId) (data : Option JoinData) (time : String)
  | chatMessage (c : ConnId) (data : Option ChatData) (time : String)
  | typing (c : ConnId)
  | stopTyping (c : ConnId)
  | leaveRoom (c : ConnId)
  | disconnect (c : ConnId)
deriving DecidableEq, Repr

/-- The exception a handler can raise. -/
inductive JsError where
  | typeError
deriving DecidableEq, Repr

/-- The callback of `io.on('connection', ...)` and the handlers it registers, dispatched on
the event. The callback itself only logs and registers; by then the transport has put the
socket in the room of its own id. -/
def handle (s : ServerState) : ClientEvent → Except JsError (ServerState × List Emission)
  | .connection c => .ok (socketOpen s c, [])
  | .joinRoom c data time =>
    match data with
    | none => .error .typeError
    | some d => .ok (joinRoom s c d.username d.room time)
  | .chatMessage c data time =>
    match JsMap.get s.users c with
    | some user =>
      match data with
      | none => .error .typeError
      | some d => .ok (s, [⟨ioTo s user.room, .message user.username d.message time⟩])
    | none => .ok (s, [])
  | .typing c =>
    match JsMap.get s.users c with
    | some user => .ok (s, [⟨socketTo s c user.room, .typing user.username⟩])
    | none => .ok (s, [])
  | .stopTyping c =>
    match JsMap.get s.users c with
    | some user => .ok (s, [⟨socketTo s c user.room, .stopTyping⟩])
    | none => .ok (s, [])
  | .leaveRoom c => .ok (handleUserLeave s c)
  | .disconnect c => .ok (handleUserLeave { s with subs := socketLeaveAll s.subs c } c)

/-- The state in which the handler of an event runs. The transport delivers an event of `c`
only while the socket of `c` is open, so a trace need not list the connection of a socket
before its first event: the event itself shows that the socket is in the room of its own id. -/
def arrive (s : ServerState) : ClientEvent → ServerState
  | .connection _ => s
  | .joinRoom c _ _ => socketOpen s c
  | .chatMessage c _ _ => socketOpen s c
  | .typing c => socketOpen s c
  | .stopTyping c => socketOpen s c
  | .leaveRoom c => socketOpen s c
  | .disconnect _ => s

/-- The state a handler leaves behind; a handler that throws has changed nothing. -/
def handled (s : ServerState) (e : ClientEvent) : ServerState :=
  match handle s e with
  | .ok r => r.1
  | .error _ => s

/-- The state after one event. -/
def step (s : ServerState) (e : ClientEvent) : ServerState :=
  handled (arrive s e) e

/-- The state after a sequence of events. -/
def run (s : ServerState) : List ClientEvent → ServerState
  | [] => s
  | e :: es => run (step s e) es

/-- Whether every `joinRoom` in the sequence comes from a connection with no `users` entry. -/
def noRejoin (s : ServerState) : List ClientEvent → Bool
  | [] => true
  | e :: es =>
    (match e with
     | .joinRoom c _ _ => !(JsMap.has s.users c)
     | _ => true) && noRejoin (step s e) es

/-! ## Monitoring endpoints -/

/-- One element of `rooms` in the `/api/stats` response. -/
structure RoomStat where
  name : RoomName
  userCount : Nat
deriving DecidableEq, Repr

/-- The `/api/stats` response. -/
structure Stats where
  totalUsers : Nat
  totalRooms : Nat
  rooms : List RoomStat
deriving DecidableEq, Repr

/-- The handler of `GET /api/stats`. -/
def apiStats (s : ServerState) : Stats :=
  { totalUsers := s.users.length
    totalRooms := s.rooms.length
    rooms := (JsMap.keys s.rooms).map (fun room =>
      ⟨room, match JsMap.get s.rooms room with
             | some set => set.length
             | none => 0⟩) }

/-- One element of the `/api/rooms` response. -/
structure RoomListing where
  name : RoomName
  users : List RoomUser
deriving DecidableEq, Repr

/-- The handler of `GET /api/rooms`. -/
def apiRooms (s : ServerState) : List RoomListing :=
  (JsMap.keys s.rooms).map (fun room => ⟨room, getRoomUsers s room⟩)

/-! ## Invariants of the presence state -/

/-- The sum of the sizes of the stored member sets. -/
def totalMembers (rooms : List (RoomName × List ConnId)) : Nat :=
  (rooms.map (fun e => e.2.length)).sum

/-- The `rooms` map that the `joinRoom` handler leaves behind (lines 52-56). -/
def roomsAfterJoin (rooms : List (RoomName × List ConnId)) (room : RoomName) (c : ConnId) :
    List (RoomName × List ConnId) :=
  JsMap.set (if JsMap.has rooms room then rooms else JsMap.set rooms room []) room
    (JsSet.add (members rooms room) c)

/-- The `rooms` map that `handleUserLeave` leaves behind (lines 135-143). -/
def roomsAfterLeave (rooms : List (RoomName × List ConnId)) (room : RoomName) (c : ConnId) :
    List (RoomName × List ConnId) :=
  match JsMap.get rooms room with
  | some set =>
    if (JsSet.delete set c).length = 0 then JsMap.delete (JsMap.set rooms room (JsSet.delete set c)) room
    else JsMap.set rooms room (JsSet.delete set c)
  | none => rooms

/-- What holds of the two maps after any sequence of events. -/
structure PresenceInv (users : List (ConnId × User)) (rooms : List (RoomName × List ConnId)) :
    Prop where
  usersKeys : (JsMap.keys users).Nodup
  roomsKeys : (JsMap.keys rooms).Nodup
  userId : ∀ c u, JsMap.get users c = some u → u.id = c
  setsNodup : ∀ r set, JsMap.get rooms r = some set → set.Nodup
  setsNonempty : ∀ r set, JsMap.get rooms r = some set → set ≠ []
  userInRoom : ∀ c u, JsMap.get users c = some u → c ∈ members rooms u.room

/-- What holds in addition when no connection joins while it has a `users` entry. -/
structure StrictInv (users : List (ConnId × User)) (rooms : List (RoomName × List ConnId)) :
    Prop where
  memberHasUser : ∀ c r, c ∈ members rooms r → ∃ u, JsMap.get users c = some u ∧ u.room = r
  count : users.length = totalMembers rooms

/-- Every connection with a `users` entry is subscribed to the room of that entry. -/
def SubInv (s : ServerState) : Prop :=
  ∀ c u, JsMap.get s.users c = some u → (c, u.room) ∈ s.subs

/-- Every member of a stored set is subscribed to the room of that set, unless `gone` holds
of it. -/
def ReachInv (s : ServerState) (gone : ConnId → Prop) : Prop :=
  ∀ c r, c ∈ members s.rooms r → (c, r) ∈ s.subs ∨ gone c

/-! ## Sample event sequences -/

/-- Connection A joins "general" as alice. -/
def aliceJoins : ClientEvent := .joinRoom "A" (some ⟨"alice", "general"⟩) "10:00:00"

/-- Connection B joins "general" as bob. -/
def bobJoins : ClientEvent := .joinRoom "B" (some ⟨"bob", "general"⟩) "10:00:01"

/-- Connection A sends `joinRoom` for "random" (a re-join when A is joined at that moment). -/
def aliceRejoins : ClientEvent := .joinRoom "A" (some ⟨"alice", "random"⟩) "10:00:02"

/-- Connection B sends "hi", claiming in the payload to be mallory in "random". -/
def bobSaysHi : ClientEvent := .chatMessage "B" (some ⟨"mallory", "hi", "random", "09:59:59"⟩) "10:00:05"

/-- Connection B joins the room whose name is the id of connection A. -/
def bobJoinsRoomOfA : ClientEvent := .joinRoom "B" (some ⟨"bob", "A"⟩) "10:00:01"

/-- Connection C joins "random" as carol. -/
def carolJoins : ClientEvent := .joinRoom "C" (some ⟨"carol", "random"⟩) "10:00:03"

/-! ## Client session controller (`script.js`) -/

/-- The fields of `ChatApp` that the typing logic reads and writes. `connected` is the value
of `this.socket && this.socket.connected`; `timerPending` tells whether the timeout stored in
`typingTimeout` is still to fire. -/
structure ChatApp where
  username : String
  room : String
  isTyping : Bool
  connected : Bool
  timerPending : Bool
deriving DecidableEq, Repr

/-- What the client does that can be observed: the events it emits and its local rendering. -/
inductive ClientOut where
  | typing (username : String) (room : String)
  | stopTyping (room : String)
  | chatMessage (username : String) (message : String) (room : String) (time : String)
  | displayOwn (username : String) (message : String) (room : String) (time : String)
deriving DecidableEq, Repr

/-- The method `stopTyping()`. -/
def ChatApp.stopTyping (a : ChatApp) : ChatApp × List ClientOut :=
  if a.isTyping && a.connected then
    ({ a with isTyping := false }, [.stopTyping a.room])
  else (a, [])

/-- The method `handleTyping()`: emit `typing` when idle and connected, then restart the timer. -/
def ChatApp.handleTyping (a : ChatApp) : ChatApp × List ClientOut :=
  let r : ChatApp × List ClientOut :=
    if !a.isTyping && a.connected then
      ({ a with isTyping := true }, [.typing a.username a.room])
    else (a, [])
  ({ r.1 with timerPending := true }, r.2)

/-- The method `sendMessage()`, where `message` is `messageInput.value.trim()` and `time` the
clock reading. -/
def ChatApp.sendMessage (a : ChatApp) (message : String) (time : String) :
    ChatApp × List ClientOut :=
  if message = "" then (a, [])
  else
    let out : List ClientOut :=
      if a.connected then [.chatMessage a.username message a.room time]
      else [.displayOwn a.username message a.room time]
    let r := a.stopTyping
    (r.1, out ++ r.2)

/-- The steps of the client: an `input` event on the message box, the typing timer firing, a
message submission, and the socket connecting or disconnecting. -/
inductive ClientStep where
  | keystroke
  | timerExpiry
  | sendMessage (message : String) (time : String)
  | connect
  | disconnect
deriving DecidableEq, Repr

/-- One step of the client. The timer fires only when pending, and then runs `stopTyping()`. -/
def ChatApp.step (a : ChatApp) : ClientStep → ChatApp × List ClientOut
  | .keystroke => a.handleTyping
  | .timerExpiry =>
    if a.timerPending then ChatApp.stopTyping { a with timerPending := false } else (a, [])
  | .sendMessage message time => a.sendMessage message time
  | .connect => ({ a with connected := true }, [])
  | .disconnect => ({ a with connected := false }, [])

/-- A trace: the final state and everything emitted, in order. -/
def ChatApp.run (a : ChatApp) : List ClientStep → ChatApp × List ClientOut
  | [] => (a, [])
  | st :: rest => ((ChatApp.run (a.step st).1 rest).1, (a.step st).2 ++ (ChatApp.run (a.step st).1 rest).2)

/-- The `typing` (true) and `stopTyping` (false) emissions of a trace, in order. -/
def typingMarks (out : List ClientOut) : List Bool :=
  out.filterMap (fun o =>
    match o with
    | .typing _ _ => some true
    | .stopTyping _ => some false
    | _ => none)

/-- Whether a list of marks alternates, beginning with `b` when it is not empty. -/
def alternating : Bool → List Bool → Bool
  | _, [] => true
  | b, x :: xs => (x == b) && alternating (!b) xs

/-- A client in demo mode: no connection, idle, no timer. -/
def demoClient : ChatApp := ⟨"bob", "general", false, false, false⟩

/-- A connected, idle client. -/
def liveClient : ChatApp := ⟨"bob", "general", false, true, false⟩

/-- A session: two keystrokes, the timer fires, a keystroke, a message is sent, the stale
timer fires, the socket drops, a keystroke in the meantime, the socket returns, a keystroke. -/
def sampleSession : List ClientStep :=
  [.keystroke, .keystroke, .timerExpiry, .keystroke, .sendMessage "hi" "10:00:05", .timerExpiry,
    .disconnect, .keystroke, .connect, .keystroke]

/-! ## Container lemmas -/

theorem JsMap.get_set_self {K V : Type} [DecidableEq K] (m : List (K × V)) (k : K) (v : V) :
    JsMap.get (JsMap.set m k v) k = some v := by
  induction m with
  | nil => simp [JsMap.set, JsMap.get]
  | cons e rest ih =>
    obtain ⟨k1, v1⟩ := e
    by_cases h : k1 = k
    · simp [JsMap.set, JsMap.get, h]
    · simp [JsMap.set, JsMap.get, h, ih]

theorem JsMap.get_set_ne {K V : Type} [DecidableEq K] (m : List (K × V)) (k k2 : K) (v : V)
    (hne : k2 ≠ k) : JsMap.get (JsMap.set m k v) k2 = JsMap.get m k2 := by
  have hne2 : ¬ k = k2 := fun h => hne h.symm
  induction m with
  | nil => simp [JsMap.set, JsMap.get, hne2]
  | cons e rest ih =>
    obtain ⟨k1, v1⟩ := e
    by_cases h : k1 = k
    · subst h
      simp [JsMap.set, JsMap.get, hne2]
    · by_cases h3 : k1 = k2
      · subst h3
        simp [JsMap.set, JsMap.get, h]
      · simp [JsMap.set, JsMap.get, h, h3, ih]

theorem JsMap.get_delete_self {K V : Type} [DecidableEq K] (m : List (K × V)) (k : K) :
    JsMap.get (JsMap.delete m k) k = none := by
  induction m with
  | nil => simp [JsMap.delete, JsMap.get]
  | cons e rest ih =>
    obtain ⟨k1, v1⟩ := e
    by_cases h : k1 = k
    · simpa [JsMap.delete, h] using ih
    · simpa [JsMap.delete, h, JsMap.get] using ih

theorem JsMap.get_delete_ne {K V : Type} [DecidableEq K] (m : List (K × V)) (k k2 : K)
    (hne : k2 ≠ k) : JsMap.get (JsMap.delete m k) k2 = JsMap.get m k2 := by
  have hne2 : ¬ k = k2 := fun h => hne h.symm
  induction m with
  | nil => simp [JsMap.delete, JsMap.get]
  | cons e rest ih =>
    obtain ⟨k1, v1⟩ := e
    have hd : JsMap.delete ((k1, v1) :: rest) k
        = if k1 = k then JsMap.delete rest k else (k1, v1) :: JsMap.delete rest k := by
      by_cases h : k1 = k <;> simp [JsMap.delete, h]
    rw [hd]
    by_cases h : k1 = k
    · subst h
      simp [JsMap.get, hne2, ih]
    · by_cases h3 : k1 = k2
      · subst h3
        simp [JsMap.get, h]
      · simp [JsMap.get, h, h3, ih]

theorem JsMap.mem_keys_iff {K V : Type} [DecidableEq K] (m : List (K × V)) (k : K) :
    k ∈ JsMap.keys m ↔ JsMap.get m k ≠ none := by
  induction m with
  | nil => simp [JsMap.keys, JsMap.get]
  | cons e rest ih =>
    obtain ⟨k1, v1⟩ := e
    by_cases h : k1 = k
    · simp [JsMap.keys, JsMap.get, h]
    · have h2 : ¬ k = k1 := fun h2 => h h2.symm
      simpa [JsMap.keys, JsMap.get, h, h2] using ih

theorem JsMap.has_iff {K V : Type} [DecidableEq K] (m : List (K × V)) (k : K) :
    JsMap.has m k = true ↔ JsMap.get m k ≠ none := by
  simp [JsMap.has, Option.isSome_iff_ne_none]

theorem JsMap.keys_set {K V : Type} [DecidableEq K] (m : List (K × V)) (k : K) (v : V) :
    JsMap.keys (JsMap.set m k v) = if k ∈ JsMap.keys m then JsMap.keys m else JsMap.keys m ++ [k] := by
  induction m with
  | nil => simp [JsMap.set, JsMap.keys]
  | cons e rest ih =>
    obtain ⟨k1, v1⟩ := e
    by_cases h : k1 = k
    · simp [JsMap.set, JsMap.keys, h]
    · have h2 : ¬ k = k1 := fun h2 => h h2.symm
      simp only [JsMap.keys] at ih
      simp only [JsMap.set, JsMap.keys, h, if_false, List.map_cons, List.mem_cons, h2, false_or, ih]
      split <;> simp

theorem JsMap.keys_set_nodup {K V : Type} [DecidableEq K] (m : List (K × V)) (k : K) (v : V)
    (h : (JsMap.keys m).Nodup) : (JsMap.keys (JsMap.set m k v)).Nodup := by
  rw [JsMap.keys_set]
  split
  · exact h
  · rename_i hk
    exact List.Nodup.append h (List.nodup_singleton k) (by simpa using hk)

theorem JsMap.delete_of_not_mem {K V : Type} [DecidableEq K] (m : List (K × V)) (k : K)
    (h : k ∉ JsMap.keys m) : JsMap.delete m k = m := by
  unfold JsMap.delete
  rw [List.filter_eq_self]
  intro e he
  have : e.1 ∈ JsMap.keys m := List.mem_map_of_mem Prod.fst he
  simp only [decide_eq_true_eq]
  intro heq
  exact h (heq ▸ this)

theorem JsMap.keys_delete_nodup {K V : Type} [DecidableEq K] (m : List (K × V)) (k : K)
    (h : (JsMap.keys m).Nodup) : (JsMap.keys (JsMap.delete m k)).Nodup := by
  unfold JsMap.keys JsMap.delete
  exact (List.filter_sublist m).map Prod.fst |>.nodup h

theorem JsMap.length_set_none {K V : Type} [DecidableEq K] (m : List (K × V)) (k : K) (v : V)
    (h : JsMap.get m k = none) : (JsMap.set m k v).length = m.length + 1 := by
  induction m with
  | nil => simp [JsMap.set]
  | cons e rest ih =>
    obtain ⟨k1, v1⟩ := e
    by_cases h1 : k1 = k
    · simp [JsMap.get, h1] at h
    · simp only [JsMap.get, h1, if_false] at h
      simp [JsMap.set, h1, ih h]

theorem JsMap.length_set_some {K V : Type} [DecidableEq K] (m : List (K × V)) (k : K) (v v0 : V)
    (h : JsMap.get m k = some v0) : (JsMap.set m k v).length = m.length := by
  induction m with
  | nil => simp [JsMap.get] at h
  | cons e rest ih =>
    obtain ⟨k1, v1⟩ := e
    by_cases h1 : k1 = k
    · simp [JsMap.set, h1]
    · simp only [JsMap.get, h1, if_false] at h
      simp [JsMap.set, h1, ih h]

theorem JsMap.length_delete {K V : Type} [DecidableEq K] (m : List (K × V)) (k : K) (v0 : V)
    (hk : (JsMap.keys m).Nodup) (h : JsMap.get m k = some v0) :
    (JsMap.delete m k).length + 1 = m.length := by
  induction m with
  | nil => simp [JsMap.get] at h
  | cons e rest ih =>
    obtain ⟨k1, v1⟩ := e
    have hk2 : k1 ∉ JsMap.keys rest ∧ (JsMap.keys rest).Nodup := by
      simpa [JsMap.keys] using hk
    by_cases h1 : k1 = k
    · have hrest : JsMap.delete rest k = rest := JsMap.delete_of_not_mem rest k (h1 ▸ hk2.1)
      have : JsMap.delete ((k1, v1) :: rest) k = JsMap.delete rest k := by
        simp [JsMap.delete, h1]
      rw [this, hrest]
      simp
    · simp only [JsMap.get, h1, if_false] at h
      have : JsMap.delete ((k1, v1) :: rest) k = (k1, v1) :: JsMap.delete rest k := by
        simp [JsMap.delete, h1]
      rw [this]
      simp [ih hk2.2 h]

theorem JsSet.mem_add {A : Type} [DecidableEq A] (s : List A) (a x : A) :
    x ∈ JsSet.add s a ↔ x ∈ s ∨ x = a := by
  unfold JsSet.add
  split
  · rename_i h
    constructor
    · exact fun hx => Or.inl hx
    · rintro (hx | hx)
      · exact hx
      · exact hx ▸ h
  · simp

theorem JsSet.nodup_add {A : Type} [DecidableEq A] (s : List A) (a : A) (h : s.Nodup) :
    (JsSet.add s a).Nodup := by
  unfold JsSet.add
  split
  · exact h
  · rename_i ha
    exact List.Nodup.append h (List.nodup_singleton a) (by simpa using ha)

theorem JsSet.length_add {A : Type} [DecidableEq A] (s : List A) (a : A) (h : a ∉ s) :
    (JsSet.add s a).length = s.length + 1 := by
  simp [JsSet.add, h]

theorem JsSet.add_ne_nil {A : Type} [DecidableEq A] (s : List A) (a : A) :
    JsSet.add s a ≠ [] := by
  intro h
  have : a ∈ JsSet.add s a := (JsSet.mem_add s a a).2 (Or.inr rfl)
  rw [h] at this
  exact List.not_mem_nil a this

theorem JsSet.mem_delete {A : Type} [DecidableEq A] (s : List A) (a x : A) :
    x ∈ JsSet.delete s a ↔ x ∈ s ∧ x ≠ a := by
  simp [JsSet.delete]

theorem JsSet.nodup_delete {A : Type} [DecidableEq A] (s : List A) (a : A) (h : s.Nodup) :
    (JsSet.delete s a).Nodup :=
  h.filter _

theorem JsSet.delete_absent {A : Type} [DecidableEq A] (s : List A) (a : A) (h : a ∉ s) :
    JsSet.delete s a = s := by
  unfold JsSet.delete
  rw [List.filter_eq_self]
  intro y hy
  simp only [decide_eq_true_eq]
  intro hya
  exact h (hya ▸ hy)

theorem JsSet.delete_cons {A : Type} [DecidableEq A] (x : A) (s : List A) (a : A) :
    JsSet.delete (x :: s) a = if x = a then JsSet.delete s a else x :: JsSet.delete s a := by
  by_cases h : x = a <;> simp [JsSet.delete, h]

theorem JsSet.length_delete_mem {A : Type} [DecidableEq A] (s : List A) (a : A) (h : s.Nodup)
    (ha : a ∈ s) : (JsSet.delete s a).length + 1 = s.length := by
  induction s with
  | nil => simp at ha
  | cons x rest ih =>
    have hn : x ∉ rest ∧ rest.Nodup := by simpa using h
    rw [JsSet.delete_cons]
    by_cases hx : x = a
    · subst hx
      simp [JsSet.delete_absent rest x hn.1]
    · have ha2 : a ∈ rest := by
        rcases List.mem_cons.1 ha with h1 | h1
        · exact absurd h1.symm hx
        · exact h1
      simp [hx, ih hn.2 ha2]

/-! ## The two handlers that change the maps -/

theorem joinRoom_users (s : ServerState) (c : ConnId) (u : String) (r : RoomName) (t : String) :
    (joinRoom s c u r t).1.users = JsMap.set s.users c ⟨c, u, r⟩ := rfl

theorem joinRoom_subs (s : ServerState) (c : ConnId) (u : String) (r : RoomName) (t : String) :
    (joinRoom s c u r t).1.subs = socketJoin s.subs c r := rfl

theorem joinRoom_rooms (s : ServerState) (c : ConnId) (u : String) (r : RoomName) (t : String) :
    (joinRoom s c u r t).1.rooms = roomsAfterJoin s.rooms r c := by
  simp only [joinRoom, roomsAfterJoin, members, JsMap.has]
  by_cases h : JsMap.get s.rooms r = none
  · simp [h, JsMap.get_set_self]
  · obtain ⟨set, hset⟩ := Option.isSome_iff_exists.1 (Option.ne_none_iff_isSome.1 h)
    simp [hset]

theorem handleUserLeave_none (s : ServerState) (c : ConnId) (h : JsMap.get s.users c = none) :
    handleUserLeave s c = (s, []) := by
  simp [handleUserLeave, h]

theorem handleUserLeave_some (s : ServerState) (c : ConnId) (user : User)
    (h : JsMap.get s.users c = some user) :
    handleUserLeave s c =
      (⟨JsMap.delete s.users c, roomsAfterLeave s.rooms user.room c, s.subs⟩,
        [ ⟨socketTo ⟨JsMap.delete s.users c, roomsAfterLeave s.rooms user.room c, s.subs⟩ c
              user.room,
            .userLeft user.username
              (getRoomUsers ⟨JsMap.delete s.users c, roomsAfterLeave s.rooms user.room c, s.subs⟩
                user.room)⟩,
          ⟨ioTo ⟨JsMap.delete s.users c, roomsAfterLeave s.rooms user.room c, s.subs⟩ user.room,
            .roomUsers user.room
              (getRoomUsers ⟨JsMap.delete s.users c, roomsAfterLeave s.rooms user.room c, s.subs⟩
                user.room)⟩ ]) := by
  simp only [handleUserLeave, h, roomsAfterLeave]

theorem members_of_get {rooms : List (RoomName × List ConnId)} {r : RoomName} {set : List ConnId}
    (h : JsMap.get rooms r = some set) : members rooms r = set := by
  simp [members, h]

theorem members_of_get_eq {rooms1 rooms2 : List (RoomName × List ConnId)} {r : RoomName}
    (h : JsMap.get rooms1 r = JsMap.get rooms2 r) : members rooms1 r = members rooms2 r := by
  simp [members, h]

theorem roomsAfterJoin_get_self (rooms : List (RoomName × List ConnId)) (r : RoomName)
    (c : ConnId) :
    JsMap.get (roomsAfterJoin rooms r c) r = some (JsSet.add (members rooms r) c) := by
  simp [roomsAfterJoin, JsMap.get_set_self]

theorem roomsAfterJoin_get_ne (rooms : List (RoomName × List ConnId)) (r r2 : RoomName)
    (c : ConnId) (hne : r2 ≠ r) :
    JsMap.get (roomsAfterJoin rooms r c) r2 = JsMap.get rooms r2 := by
  unfold roomsAfterJoin
  rw [JsMap.get_set_ne _ _ _ _ hne]
  split
  · rfl
  · exact JsMap.get_set_ne _ _ _ _ hne

theorem roomsAfterJoin_keys (rooms : List (RoomName × List ConnId)) (r : RoomName)
    (c : ConnId) (h : (JsMap.keys rooms).Nodup) :
    (JsMap.keys (roomsAfterJoin rooms r c)).Nodup := by
  unfold roomsAfterJoin
  apply JsMap.keys_set_nodup
  split
  · exact h
  · exact JsMap.keys_set_nodup _ _ _ h

theorem roomsAfterLeave_get_ne (rooms : List (RoomName × List ConnId)) (r r2 : RoomName)
    (c : ConnId) (hne : r2 ≠ r) :
    JsMap.get (roomsAfterLeave rooms r c) r2 = JsMap.get rooms r2 := by
  unfold roomsAfterLeave
  cases h : JsMap.get rooms r with
  | none => rfl
  | some set =>
    simp only
    split
    · rw [JsMap.get_delete_ne _ _ _ hne, JsMap.get_set_ne _ _ _ _ hne]
    · rw [JsMap.get_set_ne _ _ _ _ hne]

theorem roomsAfterLeave_get_self (rooms : List (RoomName × List ConnId)) (r : RoomName)
    (c : ConnId) :
    JsMap.get (roomsAfterLeave rooms r c) r =
      if JsSet.delete (members rooms r) c = [] then none
      else some (JsSet.delete (members rooms r) c) := by
  unfold roomsAfterLeave
  cases h : JsMap.get rooms r with
  | none => simp [members, h, JsSet.delete]
  | some set =>
    simp only [members, h, List.length_eq_zero]
    split
    · exact JsMap.get_delete_self _ _
    · exact JsMap.get_set_self _ _ _

theorem roomsAfterLeave_members (rooms : List (RoomName × List ConnId)) (r : RoomName)
    (c : ConnId) :
    members (roomsAfterLeave rooms r c) r = JsSet.delete (members rooms r) c := by
  rw [members, roomsAfterLeave_get_self]
  split <;> simp_all

theorem roomsAfterLeave_keys (rooms : List (RoomName × List ConnId)) (r : RoomName)
    (c : ConnId) (h : (JsMap.keys rooms).Nodup) :
    (JsMap.keys (roomsAfterLeave rooms r c)).Nodup := by
  unfold roomsAfterLeave
  cases h2 : JsMap.get rooms r with
  | none => exact h
  | some set =>
    simp only
    split
    · exact JsMap.keys_delete_nodup _ _ (JsMap.keys_set_nodup _ _ _ h)
    · exact JsMap.keys_set_nodup _ _ _ h

/-! ## Counting members -/

theorem totalMembers_set_none (m : List (RoomName × List ConnId)) (k : RoomName)
    (v : List ConnId) (h : JsMap.get m k = none) :
    totalMembers (JsMap.set m k v) = totalMembers m + v.length := by
  induction m with
  | nil => simp [JsMap.set, totalMembers]
  | cons e rest ih =>
    obtain ⟨k1, v1⟩ := e
    by_cases h1 : k1 = k
    · simp [JsMap.get, h1] at h
    · simp only [JsMap.get, h1, if_false] at h
      have := ih h
      simp only [totalMembers] at this
      simp [JsMap.set, h1, totalMembers, this]
      omega

theorem totalMembers_set_some (m : List (RoomName × List ConnId)) (k : RoomName)
    (v v0 : List ConnId) (h : JsMap.get m k = some v0) :
    totalMembers (JsMap.set m k v) + v0.length = totalMembers m + v.length := by
  induction m with
  | nil => simp [JsMap.get] at h
  | cons e rest ih =>
    obtain ⟨k1, v1⟩ := e
    by_cases h1 : k1 = k
    · simp only [JsMap.get, h1, if_true, Option.some.injEq] at h
      subst h
      simp [JsMap.set, h1, totalMembers]
      omega
    · simp only [JsMap.get, h1, if_false] at h
      have := ih h
      simp only [totalMembers] at this
      simp [JsMap.set, h1, totalMembers]
      omega

theorem totalMembers_delete (m : List (RoomName × List ConnId)) (k : RoomName)
    (v0 : List ConnId) (hk : (JsMap.keys m).Nodup) (h : JsMap.get m k = some v0) :
    totalMembers (JsMap.delete m k) + v0.length = totalMembers m := by
  induction m with
  | nil => simp [JsMap.get] at h
  | cons e rest ih =>
    obtain ⟨k1, v1⟩ := e
    have hk2 : k1 ∉ JsMap.keys rest ∧ (JsMap.keys rest).Nodup := by
      simpa [JsMap.keys] using hk
    by_cases h1 : k1 = k
    · have hrest : JsMap.delete rest k = rest := JsMap.delete_of_not_mem rest k (h1 ▸ hk2.1)
      have hd : JsMap.delete ((k1, v1) :: rest) k = JsMap.delete rest k := by
        simp [JsMap.delete, h1]
      simp only [JsMap.get, h1, if_true, Option.some.injEq] at h
      subst h
      rw [hd, hrest]
      simp [totalMembers]
      omega
    · simp only [JsMap.get, h1, if_false] at h
      have hd : JsMap.delete ((k1, v1) :: rest) k = (k1, v1) :: JsMap.delete rest k := by
        simp [JsMap.delete, h1]
      have := ih hk2.2 h
      simp only [totalMembers] at this
      rw [hd]
      simp [totalMembers]
      omega

theorem totalMembers_join (rooms : List (RoomName × List ConnId)) (r : RoomName) (c : ConnId)
    (hc : c ∉ members rooms r) :
    totalMembers (roomsAfterJoin rooms r c) = totalMembers rooms + 1 := by
  unfold roomsAfterJoin
  cases h : JsMap.get rooms r with
  | none =>
    have h0 : members rooms r = [] := by simp [members, h]
    have h1 := totalMembers_set_none rooms r [] h
    have h2 := totalMembers_set_some (JsMap.set rooms r []) r (JsSet.add [] c) []
      (JsMap.get_set_self _ _ _)
    simp only [JsMap.has, h, h0, Option.isSome_none, Bool.false_eq_true, if_false]
    simp [JsSet.add] at h2 ⊢
    simp only [List.length_nil] at h1
    omega
  | some set =>
    have h0 : members rooms r = set := members_of_get h
    rw [h0] at hc
    have h2 := totalMembers_set_some rooms r (JsSet.add set c) set h
    rw [JsSet.length_add set c hc] at h2
    simp only [JsMap.has, h, h0, Option.isSome_some, if_true]
    omega

theorem totalMembers_leave (rooms : List (RoomName × List ConnId)) (r : RoomName) (c : ConnId)
    (hk : (JsMap.keys rooms).Nodup) (hn : (members rooms r).Nodup) (hc : c ∈ members rooms r) :
    totalMembers (roomsAfterLeave rooms r c) + 1 = totalMembers rooms := by
  unfold roomsAfterLeave
  cases h : JsMap.get rooms r with
  | none => simp [members, h] at hc
  | some set =>
    have h0 : members rooms r = set := members_of_get h
    rw [h0] at hc hn
    have hlen := JsSet.length_delete_mem set c hn hc
    have h2 := totalMembers_set_some rooms r (JsSet.delete set c) set h
    simp only
    split
    · have h3 := totalMembers_delete (JsMap.set rooms r (JsSet.delete set c)) r
        (JsSet.delete set c) (JsMap.keys_set_nodup _ _ _ hk) (JsMap.get_set_self _ _ _)
      omega
    · omega

/-! ## Preservation of the invariants -/

theorem members_nodup {users : List (ConnId × User)} {rooms : List (RoomName × List ConnId)}
    (inv : PresenceInv users rooms) (r : RoomName) : (members rooms r).Nodup := by
  unfold members
  cases h : JsMap.get rooms r with
  | none => exact List.nodup_nil
  | some set => exact inv.setsNodup r set h

theorem presenceInv_empty : PresenceInv [] [] where
  usersKeys := List.nodup_nil
  roomsKeys := List.nodup_nil
  userId := by intro c u h; simp [JsMap.get] at h
  setsNodup := by intro r set h; simp [JsMap.get] at h
  setsNonempty := by intro r set h; simp [JsMap.get] at h
  userInRoom := by intro c u h; simp [JsMap.get] at h

theorem strictInv_empty : StrictInv [] [] where
  memberHasUser := by intro c r h; simp [members, JsMap.get] at h
  count := rfl

theorem presenceInv_join {users : List (ConnId × User)} {rooms : List (RoomName × List ConnId)}
    (inv : PresenceInv users rooms) (c : ConnId) (u : String) (r : RoomName) :
    PresenceInv (JsMap.set users c ⟨c, u, r⟩) (roomsAfterJoin rooms r c) where
  usersKeys := JsMap.keys_set_nodup _ _ _ inv.usersKeys
  roomsKeys := roomsAfterJoin_keys _ _ _ inv.roomsKeys
  userId := by
    intro c2 u2 h
    by_cases hc : c2 = c
    · subst hc
      rw [JsMap.get_set_self] at h
      cases h
      rfl
    · rw [JsMap.get_set_ne _ _ _ _ hc] at h
      exact inv.userId c2 u2 h
  setsNodup := by
    intro r2 set h
    by_cases hr : r2 = r
    · subst hr
      rw [roomsAfterJoin_get_self] at h
      cases h
      exact JsSet.nodup_add _ _ (members_nodup inv r2)
    · rw [roomsAfterJoin_get_ne _ _ _ _ hr] at h
      exact inv.setsNodup r2 set h
  setsNonempty := by
    intro r2 set h
    by_cases hr : r2 = r
    · subst hr
      rw [roomsAfterJoin_get_self] at h
      cases h
      exact JsSet.add_ne_nil _ _
    · rw [roomsAfterJoin_get_ne _ _ _ _ hr] at h
      exact inv.setsNonempty r2 set h
  userInRoom := by
    intro c2 u2 h
    have key : ∀ x, x ∈ members rooms u2.room ∨ (x = c ∧ u2.room = r) →
        x ∈ members (roomsAfterJoin rooms r c) u2.room := by
      intro x hx
      by_cases hr : u2.room = r
      · rw [hr, members_of_get (roomsAfterJoin_get_self rooms r c), JsSet.mem_add]
        rcases hx with hx | hx
        · exact Or.inl (hr ▸ hx)
        · exact Or.inr hx.1
      · rw [members_of_get_eq (roomsAfterJoin_get_ne rooms r u2.room c hr)]
        rcases hx with hx | hx
        · exact hx
        · exact absurd hx.2 hr
    by_cases hc : c2 = c
    · subst hc
      rw [JsMap.get_set_self] at h
      cases h
      exact key c2 (Or.inr ⟨rfl, rfl⟩)
    · rw [JsMap.get_set_ne _ _ _ _ hc] at h
      exact key c2 (Or.inl (inv.userInRoom c2 u2 h))

theorem strictInv_join {users : List (ConnId × User)} {rooms : List (RoomName × List ConnId)}
    (str : StrictInv users rooms) (c : ConnId) (u : String)
    (r : RoomName) (hnew : JsMap.get users c = none) :
    StrictInv (JsMap.set users c ⟨c, u, r⟩) (roomsAfterJoin rooms r c) where
  memberHasUser := by
    intro c2 r2 h
    by_cases hc : c2 = c
    · subst hc
      by_cases hr : r2 = r
      · exact ⟨⟨c2, u, r⟩, JsMap.get_set_self _ _ _, hr.symm⟩
      · rw [members_of_get_eq (roomsAfterJoin_get_ne rooms r r2 c2 hr)] at h
        obtain ⟨u2, hu2, _⟩ := str.memberHasUser c2 r2 h
        rw [hnew] at hu2
        cases hu2
    · have hold : c2 ∈ members rooms r2 := by
        by_cases hr : r2 = r
        · subst hr
          rw [members_of_get (roomsAfterJoin_get_self rooms r2 c), JsSet.mem_add] at h
          rcases h with h | h
          · exact h
          · exact absurd h hc
        · rw [members_of_get_eq (roomsAfterJoin_get_ne rooms r r2 c hr)] at h
          exact h
      obtain ⟨u2, hu2, hroom⟩ := str.memberHasUser c2 r2 hold
      exact ⟨u2, by rw [JsMap.get_set_ne _ _ _ _ hc]; exact hu2, hroom⟩
  count := by
    have hc : c ∉ members rooms r := by
      intro hmem
      obtain ⟨u2, hu2, _⟩ := str.memberHasUser c r hmem
      rw [hnew] at hu2
      cases hu2
    rw [JsMap.length_set_none _ _ _ hnew, totalMembers_join _ _ _ hc, str.count]

theorem presenceInv_leave {users : List (ConnId × User)} {rooms : List (RoomName × List ConnId)}
    (inv : PresenceInv users rooms) (c : ConnId) (r : RoomName) :
    PresenceInv (JsMap.delete users c) (roomsAfterLeave rooms r c) where
  usersKeys := JsMap.keys_delete_nodup _ _ inv.usersKeys
  roomsKeys := roomsAfterLeave_keys _ _ _ inv.roomsKeys
  userId := by
    intro c2 u2 h
    by_cases hc : c2 = c
    · subst hc
      rw [JsMap.get_delete_self] at h
      cases h
    · rw [JsMap.get_delete_ne _ _ _ hc] at h
      exact inv.userId c2 u2 h
  setsNodup := by
    intro r2 set h
    by_cases hr : r2 = r
    · subst hr
      rw [roomsAfterLeave_get_self] at h
      split at h
      · cases h
      · cases h
        exact JsSet.nodup_delete _ _ (members_nodup inv r2)
    · rw [roomsAfterLeave_get_ne _ _ _ _ hr] at h
      exact inv.setsNodup r2 set h
  setsNonempty := by
    intro r2 set h
    by_cases hr : r2 = r
    · subst hr
      rw [roomsAfterLeave_get_self] at h
      split at h
      · cases h
      · rename_i hne
        cases h
        exact hne
    · rw [roomsAfterLeave_get_ne _ _ _ _ hr] at h
      exact inv.setsNonempty r2 set h
  userInRoom := by
    intro c2 u2 h
    by_cases hc : c2 = c
    · subst hc
      rw [JsMap.get_delete_self] at h
      cases h
    · rw [JsMap.get_delete_ne _ _ _ hc] at h
      have hold := inv.userInRoom c2 u2 h
      by_cases hr : u2.room = r
      · rw [hr, roomsAfterLeave_members, JsSet.mem_delete]
        exact ⟨hr ▸ hold, hc⟩
      · rw [members_of_get_eq (roomsAfterLeave_get_ne rooms r u2.room c hr)]
        exact hold

theorem strictInv_leave {users : List (ConnId × User)} {rooms : List (RoomName × List ConnId)}
    (inv : PresenceInv users rooms) (str : StrictInv users rooms) (c : ConnId) (user : User)
    (hu : JsMap.get users c = some user) :
    StrictInv (JsMap.delete users c) (roomsAfterLeave rooms user.room c) where
  memberHasUser := by
    intro c2 r2 h
    have hold : c2 ∈ members rooms r2 ∧ c2 ≠ c := by
      by_cases hr : r2 = user.room
      · subst hr
        rw [roomsAfterLeave_members, JsSet.mem_delete] at h
        exact h
      · rw [members_of_get_eq (roomsAfterLeave_get_ne rooms user.room r2 c hr)] at h
        refine ⟨h, ?_⟩
        intro hc
        subst hc
        obtain ⟨u2, hu2, hroom⟩ := str.memberHasUser c2 r2 h
        rw [hu] at hu2
        cases hu2
        exact hr hroom.symm
    obtain ⟨u2, hu2, hroom⟩ := str.memberHasUser c2 r2 hold.1
    exact ⟨u2, by rw [JsMap.get_delete_ne _ _ _ hold.2]; exact hu2, hroom⟩
  count := by
    have h1 := JsMap.length_delete users c user inv.usersKeys hu
    have h2 := totalMembers_leave rooms user.room c inv.roomsKeys (members_nodup inv user.room)
      (inv.userInRoom c user hu)
    have h3 := str.count
    omega

/-! ## Steps and runs -/

theorem presenceInv_handleUserLeave (s : ServerState) (c : ConnId)
    (inv : PresenceInv s.users s.rooms) :
    PresenceInv (handleUserLeave s c).1.users (handleUserLeave s c).1.rooms := by
  cases h : JsMap.get s.users c with
  | none => rw [handleUserLeave_none s c h]; exact inv
  | some user => rw [handleUserLeave_some s c user h]; exact presenceInv_leave inv c user.room

theorem strictInv_handleUserLeave (s : ServerState) (c : ConnId)
    (inv : PresenceInv s.users s.rooms) (str : StrictInv s.users s.rooms) :
    StrictInv (handleUserLeave s c).1.users (handleUserLeave s c).1.rooms := by
  cases h : JsMap.get s.users c with
  | none => rw [handleUserLeave_none s c h]; exact str
  | some user => rw [handleUserLeave_some s c user h]; exact strictInv_leave inv str c user h

theorem subInv_handleUserLeave (s : ServerState) (c : ConnId)
    (h : ∀ c2 u, c2 ≠ c → JsMap.get s.users c2 = some u → (c2, u.room) ∈ s.subs) :
    SubInv (handleUserLeave s c).1 := by
  intro c2 u hu
  cases hc : JsMap.get s.users c with
  | none =>
    rw [handleUserLeave_none s c hc] at hu ⊢
    have hne : c2 ≠ c := by
      intro heq
      subst heq
      rw [hc] at hu
      cases hu
    exact h c2 u hne hu
  | some user =>
    rw [handleUserLeave_some s c user hc] at hu ⊢
    simp only at hu ⊢
    have hne : c2 ≠ c := by
      intro heq
      subst heq
      rw [JsMap.get_delete_self] at hu
      cases hu
    rw [JsMap.get_delete_ne _ _ _ hne] at hu
    exact h c2 u hne hu

theorem mem_socketJoin (subs : List (ConnId × RoomName)) (c : ConnId) (r : RoomName)
    (p : ConnId × RoomName) : p ∈ socketJoin subs c r ↔ p ∈ subs ∨ p = (c, r) := by
  unfold socketJoin
  split
  · rename_i h
    constructor
    · exact fun hp => Or.inl hp
    · rintro (hp | hp)
      · exact hp
      · exact hp ▸ h
  · simp

theorem mem_subscribers (subs : List (ConnId × RoomName)) (c : ConnId) (r : RoomName) :
    c ∈ subscribers subs r ↔ (c, r) ∈ subs := by
  simp [subscribers]

theorem subInv_joinRoom (s : ServerState) (c : ConnId) (u : String) (r : RoomName) (t : String)
    (h : SubInv s) : SubInv (joinRoom s c u r t).1 := by
  intro c2 u2 hu
  rw [joinRoom_users] at hu
  rw [joinRoom_subs, mem_socketJoin]
  by_cases hc : c2 = c
  · subst hc
    rw [JsMap.get_set_self] at hu
    cases hu
    exact Or.inr rfl
  · rw [JsMap.get_set_ne _ _ _ _ hc] at hu
    exact Or.inl (h c2 u2 hu)

theorem subInv_socketOpen (s : ServerState) (c : ConnId) (h : SubInv s) :
    SubInv (socketOpen s c) := by
  intro c2 u hu
  exact (mem_socketJoin _ _ _ _).2 (Or.inl (h c2 u hu))

theorem arrive_users (s : ServerState) (e : ClientEvent) : (arrive s e).users = s.users := by
  cases e <;> rfl

theorem arrive_rooms (s : ServerState) (e : ClientEvent) : (arrive s e).rooms = s.rooms := by
  cases e <;> rfl

theorem subInv_arrive (s : ServerState) (e : ClientEvent) (h : SubInv s) :
    SubInv (arrive s e) := by
  cases e with
  | connection c => exact h
  | joinRoom c data time => exact subInv_socketOpen s c h
  | chatMessage c data time => exact subInv_socketOpen s c h
  | typing c => exact subInv_socketOpen s c h
  | stopTyping c => exact subInv_socketOpen s c h
  | leaveRoom c => exact subInv_socketOpen s c h
  | disconnect c => exact h

theorem presenceInv_handled (s : ServerState) (e : ClientEvent)
    (inv : PresenceInv s.users s.rooms) :
    PresenceInv (handled s e).users (handled s e).rooms := by
  cases e with
  | connection c => exact inv
  | joinRoom c data time =>
    cases data with
    | none => exact inv
    | some d =>
      show PresenceInv (joinRoom s c d.username d.room time).1.users
        (joinRoom s c d.username d.room time).1.rooms
      rw [joinRoom_users, joinRoom_rooms]
      exact presenceInv_join inv c d.username d.room
  | chatMessage c data time =>
    simp only [handled, handle]
    cases JsMap.get s.users c with
    | none => exact inv
    | some user => cases data <;> exact inv
  | typing c =>
    simp only [handled, handle]
    cases JsMap.get s.users c <;> exact inv
  | stopTyping c =>
    simp only [handled, handle]
    cases JsMap.get s.users c <;> exact inv
  | leaveRoom c => exact presenceInv_handleUserLeave s c inv
  | disconnect c =>
    exact presenceInv_handleUserLeave { s with subs := socketLeaveAll s.subs c } c inv

theorem subInv_handled (s : ServerState) (e : ClientEvent) (inv : SubInv s) :
    SubInv (handled s e) := by
  cases e with
  | connection c => exact subInv_socketOpen s c inv
  | joinRoom c data time =>
    cases data with
    | none => exact inv
    | some d => exact subInv_joinRoom s c d.username d.room time inv
  | chatMessage c data time =>
    simp only [handled, handle]
    cases JsMap.get s.users c with
    | none => exact inv
    | some user => cases data <;> exact inv
  | typing c =>
    simp only [handled, handle]
    cases JsMap.get s.users c <;> exact inv
  | stopTyping c =>
    simp only [handled, handle]
    cases JsMap.get s.users c <;> exact inv
  | leaveRoom c => exact subInv_handleUserLeave s c (fun c2 u _ hu => inv c2 u hu)
  | disconnect c =>
    apply subInv_handleUserLeave { s with subs := socketLeaveAll s.subs c } c
    intro c2 u hne hu
    have := inv c2 u hu
    simp only [socketLeaveAll, List.mem_filter, decide_eq_true_eq]
    exact ⟨this, hne⟩

theorem strictInv_handled (s : ServerState) (e : ClientEvent)
    (inv : PresenceInv s.users s.rooms) (str : StrictInv s.users s.rooms)
    (hnew : ∀ c d t, e = .joinRoom c (some d) t → JsMap.get s.users c = none) :
    StrictInv (handled s e).users (handled s e).rooms := by
  cases e with
  | connection c => exact str
  | joinRoom c data time =>
    cases data with
    | none => exact str
    | some d =>
      show StrictInv (joinRoom s c d.username d.room time).1.users
        (joinRoom s c d.username d.room time).1.rooms
      rw [joinRoom_users, joinRoom_rooms]
      exact strictInv_join str c d.username d.room (hnew c d time rfl)
  | chatMessage c data time =>
    simp only [handled, handle]
    cases JsMap.get s.users c with
    | none => exact str
    | some user => cases data <;> exact str
  | typing c =>
    simp only [handled, handle]
    cases JsMap.get s.users c <;> exact str
  | stopTyping c =>
    simp only [handled, handle]
    cases JsMap.get s.users c <;> exact str
  | leaveRoom c => exact strictInv_handleUserLeave s c inv str
  | disconnect c =>
    exact strictInv_handleUserLeave { s with subs := socketLeaveAll s.subs c } c inv str

theorem presenceInv_step (s : ServerState) (e : ClientEvent)
    (inv : PresenceInv s.users s.rooms) : PresenceInv (step s e).users (step s e).rooms := by
  apply presenceInv_handled (arrive s e) e
  rw [arrive_users, arrive_rooms]
  exact inv

theorem subInv_step (s : ServerState) (e : ClientEvent) (inv : SubInv s) :
    SubInv (step s e) :=
  subInv_handled (arrive s e) e (subInv_arrive s e inv)

theorem strictInv_step (s : ServerState) (e : ClientEvent)
    (inv : PresenceInv s.users s.rooms) (str : StrictInv s.users s.rooms)
    (hnew : ∀ c d t, e = .joinRoom c (some d) t → JsMap.get s.users c = none) :
    StrictInv (step s e).users (step s e).rooms := by
  apply strictInv_handled (arrive s e) e
  · rw [arrive_users, arrive_rooms]
    exact inv
  · rw [arrive_users, arrive_rooms]
    exact str
  · intro c d t he
    rw [arrive_users]
    exact hnew c d t he

theorem presenceInv_run (es : List ClientEvent) (s : ServerState)
    (inv : PresenceInv s.users s.rooms) : PresenceInv (run s es).users (run s es).rooms := by
  induction es generalizing s with
  | nil => exact inv
  | cons e es ih => exact ih (step s e) (presenceInv_step s e inv)

theorem subInv_run (es : List ClientEvent) (s : ServerState) (inv : SubInv s) :
    SubInv (run s es) := by
  induction es generalizing s with
  | nil => exact inv
  | cons e es ih => exact ih (step s e) (subInv_step s e inv)

theorem strictInv_run (es : List ClientEvent) (s : ServerState)
    (inv : PresenceInv s.users s.rooms) (str : StrictInv s.users s.rooms)
    (hnr : noRejoin s es = true) : StrictInv (run s es).users (run s es).rooms := by
  induction es generalizing s with
  | nil => exact str
  | cons e es ih =>
    simp only [noRejoin, Bool.and_eq_true] at hnr
    apply ih (step s e) (presenceInv_step s e inv) _ hnr.2
    apply strictInv_step s e inv str
    intro c d t he
    subst he
    have h1 := hnr.1
    cases hg : JsMap.get s.users c with
    | none => rfl
    | some u0 => simp [JsMap.has, hg] at h1

theorem presenceInv_reach (es : List ClientEvent) :
    PresenceInv (run ServerState.empty es).users (run ServerState.empty es).rooms :=
  presenceInv_run es ServerState.empty presenceInv_empty

theorem subInv_reach (es : List ClientEvent) : SubInv (run ServerState.empty es) :=
  subInv_run es ServerState.empty (by intro c u h; simp [ServerState.empty, JsMap.get] at h)

theorem strictInv_reach (es : List ClientEvent) (hnr : noRejoin ServerState.empty es = true) :
    StrictInv (run ServerState.empty es).users (run ServerState.empty es).rooms :=
  strictInv_run es ServerState.empty presenceInv_empty strictInv_empty hnr

/-! ## Membership consistency (C1, C2) -/

/-- C1, evaluated where it fails. A joins "general" and then, still joined, joins "random":
the `joinRoom` handler overwrites the `users` entry and adds A to the member set of "random"
but never removes A from the member set of "general". So A is in `rooms.get("general")` while
its `users` entry has room "random"; and after A disconnects, `handleUserLeave` clears only
"random", leaving "general" stored for good with a member that has no `users` entry. -/
theorem C1_rejoin_leaves_stale_member :
    "A" ∈ members (run ServerState.empty [aliceJoins, aliceRejoins]).rooms "general"
    ∧ JsMap.get (run ServerState.empty [aliceJoins, aliceRejoins]).users "A"
        = some ⟨"A", "alice", "random"⟩
    ∧ (run ServerState.empty [aliceJoins, aliceRejoins, .disconnect "A"]).users = []
    ∧ (run ServerState.empty [aliceJoins, aliceRejoins, .disconnect "A"]).rooms
        = [("general", ["A"])] := by
  decide

/-- After any sequence of events, re-joins included, a connection whose `users` entry has room
`r` is in `rooms.get(r)` and is subscribed to `r`. -/
theorem users_entry_is_member (es : List ClientEvent) (c : ConnId) (u : User)
    (h : JsMap.get (run ServerState.empty es).users c = some u) :
    c ∈ members (run ServerState.empty es).rooms u.room
    ∧ c ∈ subscribers (run ServerState.empty es).subs u.room :=
  ⟨(presenceInv_reach es).userInRoom c u h, (mem_subscribers _ _ _).2 (subInv_reach es c u h)⟩

theorem JsMap.get_of_mem {K V : Type} [DecidableEq K] (m : List (K × V)) (k : K) (v : V)
    (hk : (JsMap.keys m).Nodup) (h : (k, v) ∈ m) : JsMap.get m k = some v := by
  induction m with
  | nil => simp at h
  | cons e rest ih =>
    obtain ⟨k1, v1⟩ := e
    have hk2 : k1 ∉ JsMap.keys rest ∧ (JsMap.keys rest).Nodup := by
      simpa [JsMap.keys] using hk
    rcases List.mem_cons.1 h with h1 | h1
    · cases h1
      simp [JsMap.get]
    · have hne : k1 ≠ k := by
        intro heq
        subst heq
        exact hk2.1 (List.mem_map_of_mem Prod.fst h1)
      simp [JsMap.get, hne, ih hk2.2 h1]

/-- C2. After any sequence of events from the empty state, a room is a key of `rooms` exactly
when its member set (`rooms.get(r) || new Set()`) is non-empty, and no stored member set is
empty. -/
theorem C2_stored_rooms_nonempty (es : List ClientEvent) :
    (∀ r, JsMap.has (run ServerState.empty es).rooms r = true
        ↔ members (run ServerState.empty es).rooms r ≠ [])
    ∧ (run ServerState.empty es).rooms.all (fun e => decide (e.2 ≠ [])) = true := by
  have inv := presenceInv_reach es
  constructor
  · intro r
    rw [JsMap.has_iff]
    cases h : JsMap.get (run ServerState.empty es).rooms r with
    | none => simp [members, h]
    | some set => simpa [members, h] using inv.setsNonempty r set h
  · rw [List.all_eq_true]
    intro e he
    have hg := JsMap.get_of_mem _ e.1 e.2 inv.roomsKeys he
    simpa using inv.setsNonempty e.1 e.2 hg

/-! ## Events from connections without a `users` entry (C4, C5) -/

/-- C4. In any state, a connection with no `users` entry that sends `chatMessage` (with any
payload, also none), `typing`, `stopTyping`, `leaveRoom` or `disconnect` makes the handler
return normally with no emission at all, and `users` and `rooms` are what they were. -/
theorem C4_unknown_connection_ignored (s : ServerState) (c : ConnId)
    (h : JsMap.get s.users c = none) (e : ClientEvent)
    (he : (∃ data time, e = .chatMessage c data time) ∨ e = .typing c ∨ e = .stopTyping c
      ∨ e = .leaveRoom c ∨ e = .disconnect c) :
    ∃ s1, handle s e = .ok (s1, []) ∧ s1.users = s.users ∧ s1.rooms = s.rooms := by
  rcases he with ⟨data, time, rfl⟩ | rfl | rfl | rfl | rfl
  · exact ⟨s, by simp [handle, h], rfl, rfl⟩
  · exact ⟨s, by simp [handle, h], rfl, rfl⟩
  · exact ⟨s, by simp [handle, h], rfl, rfl⟩
  · exact ⟨s, by simp [handle, handleUserLeave_none s c h], rfl, rfl⟩
  · refine ⟨{ s with subs := socketLeaveAll s.subs c }, ?_, rfl, rfl⟩
    simp only [handle]
    rw [handleUserLeave_none ⟨s.users, s.rooms, socketLeaveAll s.subs c⟩ c h]

/-- C4 at a concrete state: A and B are in "general", and the connection Z, which never
joined, sends a chat message with no payload. -/
theorem C4_unknown_connection_ignored_witness :
    JsMap.get (run ServerState.empty [aliceJoins, bobJoins]).users "Z" = none
    ∧ ∃ s1, handle (run ServerState.empty [aliceJoins, bobJoins]) (.chatMessage "Z" none "t")
          = .ok (s1, [])
        ∧ s1.users = (run ServerState.empty [aliceJoins, bobJoins]).users
        ∧ s1.rooms = (run ServerState.empty [aliceJoins, bobJoins]).rooms :=
  ⟨by decide,
    C4_unknown_connection_ignored (run ServerState.empty [aliceJoins, bobJoins]) "Z" (by decide)
      (.chatMessage "Z" none "t") (Or.inl ⟨none, "t", rfl⟩)⟩

theorem handleUserLeave_users_get (s : ServerState) (c : ConnId) :
    JsMap.get (handleUserLeave s c).1.users c = none := by
  cases h : JsMap.get s.users c with
  | none => rw [handleUserLeave_none s c h]; exact h
  | some user => rw [handleUserLeave_some s c user h]; exact JsMap.get_delete_self _ _

/-- C5. In any state and for any connection, running `handleUserLeave` a second time returns
the state the first run produced (the same `users`, the same `rooms`) and emits nothing; the
function is total, so neither run raises. The same holds when the second run comes from a
`leaveRoom` event. -/
theorem C5_handleUserLeave_idempotent (s : ServerState) (c : ConnId) :
    handleUserLeave (handleUserLeave s c).1 c = ((handleUserLeave s c).1, [])
    ∧ handle (handleUserLeave s c).1 (.leaveRoom c) = .ok ((handleUserLeave s c).1, []) := by
  have h := handleUserLeave_none _ c (handleUserLeave_users_get s c)
  exact ⟨h, by simp only [handle]; rw [h]⟩

/-! ## Chat messages (C3) -/

/-- C3, evaluated where it fails. A connects, joins "general", re-joins "random" and
disconnects; the re-join never removed A from `rooms.get("general")` and the disconnect clears
only "random", so the id of A stays in `rooms.get("general")`. Then B connects, joins
"general" and sends "hi": the one `message` event goes through `io.to("general")` to B alone,
and A, a member of `rooms.get("general")`, is no recipient. -/
theorem C3_stale_member_not_reached :
    JsMap.get (run ServerState.empty
        [.connection "A", aliceJoins, aliceRejoins, .disconnect "A", .connection "B",
          bobJoins]).users "B" = some ⟨"B", "bob", "general"⟩
    ∧ members (run ServerState.empty
        [.connection "A", aliceJoins, aliceRejoins, .disconnect "A", .connection "B",
          bobJoins]).rooms "general" = ["A", "B"]
    ∧ handle (run ServerState.empty
        [.connection "A", aliceJoins, aliceRejoins, .disconnect "A", .connection "B", bobJoins])
        bobSaysHi
      = .ok (run ServerState.empty
          [.connection "A", aliceJoins, aliceRejoins, .disconnect "A", .connection "B",
            bobJoins],
          [⟨["B"], .message "bob" "hi" "10:00:05"⟩]) :=
  ⟨by decide, by decide, rfl⟩

theorem reachInv_mono (s : ServerState) (g1 g2 : ConnId → Prop) (h : ReachInv s g1)
    (hg : ∀ c, g1 c → g2 c) : ReachInv s g2 := by
  intro c r hc
  rcases h c r hc with h1 | h1
  · exact Or.inl h1
  · exact Or.inr (hg c h1)

theorem reachInv_socketOpen (s : ServerState) (c : ConnId) (gone : ConnId → Prop)
    (h : ReachInv s gone) : ReachInv (socketOpen s c) gone := by
  intro c2 r hc
  rcases h c2 r hc with h1 | h1
  · exact Or.inl ((mem_socketJoin _ _ _ _).2 (Or.inl h1))
  · exact Or.inr h1

theorem reachInv_arrive (s : ServerState) (e : ClientEvent) (gone : ConnId → Prop)
    (h : ReachInv s gone) : ReachInv (arrive s e) gone := by
  cases e with
  | connection c => exact h
  | joinRoom c data time => exact reachInv_socketOpen s c gone h
  | chatMessage c data time => exact reachInv_socketOpen s c gone h
  | typing c => exact reachInv_socketOpen s c gone h
  | stopTyping c => exact reachInv_socketOpen s c gone h
  | leaveRoom c => exact reachInv_socketOpen s c gone h
  | disconnect c => exact h

theorem handleUserLeave_subs (s : ServerState) (c : ConnId) :
    (handleUserLeave s c).1.subs = s.subs := by
  cases h : JsMap.get s.users c with
  | none => rw [handleUserLeave_none s c h]
  | some user => rw [handleUserLeave_some s c user h]

theorem handleUserLeave_members (s : ServerState) (c c2 : ConnId) (r : RoomName)
    (h : c2 ∈ members (handleUserLeave s c).1.rooms r) : c2 ∈ members s.rooms r := by
  cases hu : JsMap.get s.users c with
  | none =>
    rw [handleUserLeave_none s c hu] at h
    exact h
  | some user =>
    rw [handleUserLeave_some s c user hu] at h
    simp only at h
    by_cases hr : r = user.room
    · subst hr
      rw [roomsAfterLeave_members, JsSet.mem_delete] at h
      exact h.1
    · rw [members_of_get_eq (roomsAfterLeave_get_ne s.rooms user.room r c hr)] at h
      exact h

theorem reachInv_joinRoom (s : ServerState) (c : ConnId) (u : String) (r : RoomName)
    (t : String) (gone : ConnId → Prop) (h : ReachInv s gone) :
    ReachInv (joinRoom s c u r t).1 gone := by
  intro c2 r2 hc
  rw [joinRoom_rooms] at hc
  rw [joinRoom_subs, mem_socketJoin]
  have hold : c2 ∈ members s.rooms r2 ∨ (c2 = c ∧ r2 = r) := by
    by_cases hr : r2 = r
    · subst hr
      rw [members_of_get (roomsAfterJoin_get_self s.rooms r2 c), JsSet.mem_add] at hc
      rcases hc with hc | hc
      · exact Or.inl hc
      · exact Or.inr ⟨hc, rfl⟩
    · rw [members_of_get_eq (roomsAfterJoin_get_ne s.rooms r r2 c hr)] at hc
      exact Or.inl hc
  rcases hold with hold | ⟨hc2, hr2⟩
  · rcases h c2 r2 hold with h1 | h1
    · exact Or.inl (Or.inl h1)
    · exact Or.inr h1
  · exact Or.inl (Or.inr (by rw [hc2, hr2]))

theorem reachInv_handled (s : ServerState) (e : ClientEvent) (gone : ConnId → Prop)
    (h : ReachInv s gone) : ReachInv (handled s e) (fun c => gone c ∨ e = .disconnect c) := by
  have hweak : ReachInv s (fun c => gone c ∨ e = .disconnect c) :=
    reachInv_mono s _ _ h (fun c hc => Or.inl hc)
  cases e with
  | connection c => exact reachInv_socketOpen s c _ hweak
  | joinRoom c data time =>
    cases data with
    | none => exact hweak
    | some d => exact reachInv_joinRoom s c d.username d.room time _ hweak
  | chatMessage c data time =>
    simp only [handled, handle]
    cases JsMap.get s.users c with
    | none => exact hweak
    | some user => cases data <;> exact hweak
  | typing c =>
    simp only [handled, handle]
    cases JsMap.get s.users c <;> exact hweak
  | stopTyping c =>
    simp only [handled, handle]
    cases JsMap.get s.users c <;> exact hweak
  | leaveRoom c =>
    intro c2 r hc
    have hsub : (handled s (.leaveRoom c)).subs = s.subs := handleUserLeave_subs s c
    rw [hsub]
    exact hweak c2 r (handleUserLeave_members s c c2 r hc)
  | disconnect c =>
    intro c2 r hc
    have hsub : (handled s (.disconnect c)).subs = socketLeaveAll s.subs c :=
      handleUserLeave_subs { s with subs := socketLeaveAll s.subs c } c
    have hmem : c2 ∈ members s.rooms r :=
      handleUserLeave_members { s with subs := socketLeaveAll s.subs c } c c2 r hc
    rw [hsub]
    by_cases hc2 : c2 = c
    · exact Or.inr (Or.inr (by rw [hc2]))
    · rcases h c2 r hmem with h1 | h1
      · refine Or.inl ?_
        simp only [socketLeaveAll, List.mem_filter, decide_eq_true_eq]
        exact ⟨h1, hc2⟩
      · exact Or.inr (Or.inl h1)

theorem reachInv_run (es : List ClientEvent) (s : ServerState) (gone : ConnId → Prop)
    (h : ReachInv s gone) :
    ReachInv (run s es) (fun c => gone c ∨ ClientEvent.disconnect c ∈ es) := by
  induction es generalizing s gone with
  | nil => exact reachInv_mono s _ _ h (fun c hc => Or.inl hc)
  | cons e es ih =>
    have h1 := reachInv_handled (arrive s e) e gone (reachInv_arrive s e gone h)
    have h2 := ih (step s e) _ h1
    apply reachInv_mono _ _ _ h2
    intro c hc
    rcases hc with (hc | hc) | hc
    · exact Or.inl hc
    · exact Or.inr (List.mem_cons.2 (Or.inl hc.symm))
    · exact Or.inr (List.mem_cons.2 (Or.inr hc))

/-- What the `chatMessage` handler does in general. In every state reached from the empty one
where the sender `c` has a `users` entry, `chatMessage` with payload `d` returns the state
unchanged and emits exactly one event, a `message` carrying the stored username (whatever
`d.username` says) and the text `d.message`, sent through `io.to` of the stored room. Its
recipients include the sender and every connection whose `users` entry has that room; and a
member of `rooms.get` of that room that is no recipient is a connection that has sent
`disconnect`. -/
theorem chat_message_delivery (es : List ClientEvent) (c : ConnId) (user : User)
    (d : ChatData) (time : String)
    (hu : JsMap.get (run ServerState.empty es).users c = some user) :
    handle (run ServerState.empty es) (.chatMessage c (some d) time)
      = .ok (run ServerState.empty es,
          [⟨ioTo (run ServerState.empty es) user.room, .message user.username d.message time⟩])
    ∧ c ∈ ioTo (run ServerState.empty es) user.room
    ∧ (∀ c2 u2, JsMap.get (run ServerState.empty es).users c2 = some u2 → u2.room = user.room →
        c2 ∈ ioTo (run ServerState.empty es) user.room)
    ∧ (∀ c2, c2 ∈ members (run ServerState.empty es).rooms user.room →
        c2 ∈ ioTo (run ServerState.empty es) user.room ∨ ClientEvent.disconnect c2 ∈ es) := by
  have sub := subInv_reach es
  refine ⟨by simp [handle, hu], ?_, ?_, ?_⟩
  · exact (mem_subscribers _ _ _).2 (sub c user hu)
  · intro c2 u2 hu2 hroom
    exact (mem_subscribers _ _ _).2 (hroom ▸ sub c2 u2 hu2)
  · intro c2 hc2
    have hreach := reachInv_run es ServerState.empty (fun _ => False)
      (by intro c0 r0 h0; simp [ServerState.empty, members, JsMap.get] at h0)
    rcases hreach c2 user.room hc2 with h1 | h1 | h1
    · exact Or.inl ((mem_subscribers _ _ _).2 h1)
    · exact absurd h1 id
    · exact Or.inr h1

/-- The scenario of the specification, and the room of a socket's own id. With A and B in
"general", B's "hi" is delivered to A and B under the stored username. With A open and B in
the room whose name is the id of A, B's message to that room reaches A as well, because the
transport keeps every open socket in the room named after its id. -/
theorem chat_message_delivery_examples :
    handle (run ServerState.empty [.connection "A", aliceJoins, .connection "B", bobJoins])
        bobSaysHi
      = .ok (run ServerState.empty [.connection "A", aliceJoins, .connection "B", bobJoins],
          [⟨["A", "B"], .message "bob" "hi" "10:00:05"⟩])
    ∧ ioTo (run ServerState.empty [aliceJoins, bobJoins]) "general" = ["A", "B"]
    ∧ handle (run ServerState.empty [.connection "A", .connection "B", bobJoinsRoomOfA])
        bobSaysHi
      = .ok (run ServerState.empty [.connection "A", .connection "B", bobJoinsRoomOfA],
          [⟨["A", "B"], .message "bob" "hi" "10:00:05"⟩])
    ∧ ioTo (run ServerState.empty [aliceJoins, bobJoinsRoomOfA]) "A" = ["A", "B"] :=
  ⟨rfl, by decide, rfl, by decide⟩

/-! ## Last member leaving (C6) -/

theorem apiRooms_names (s : ServerState) :
    (apiRooms s).map RoomListing.name = JsMap.keys s.rooms := by
  simp [apiRooms, Function.comp_def]

theorem apiStats_names (s : ServerState) :
    (apiStats s).rooms.map RoomStat.name = JsMap.keys s.rooms := by
  simp [apiStats, Function.comp_def]

theorem leave_sole_member (s : ServerState) (c : ConnId) (user : User)
    (inv : PresenceInv s.users s.rooms) (hu : JsMap.get s.users c = some user)
    (hr : JsMap.get s.rooms user.room = some [c]) :
    JsMap.has (handleUserLeave s c).1.rooms user.room = false
    ∧ JsMap.get (handleUserLeave s c).1.users c = none
    ∧ (handleUserLeave s c).1.users.length + 1 = s.users.length
    ∧ user.room ∉ (apiRooms (handleUserLeave s c).1).map RoomListing.name
    ∧ user.room ∉ (apiStats (handleUserLeave s c).1).rooms.map RoomStat.name := by
  have hget : JsMap.get (handleUserLeave s c).1.rooms user.room = none := by
    rw [handleUserLeave_some s c user hu]
    simp only
    rw [roomsAfterLeave_get_self, members_of_get hr]
    simp [JsSet.delete]
  have hkey : user.room ∉ JsMap.keys (handleUserLeave s c).1.rooms := by
    rw [JsMap.mem_keys_iff]
    exact fun h => h hget
  refine ⟨by simp [JsMap.has, hget], handleUserLeave_users_get s c, ?_, ?_, ?_⟩
  · rw [handleUserLeave_some s c user hu]
    exact JsMap.length_delete s.users c user inv.usersKeys hu
  · rw [apiRooms_names]; exact hkey
  · rw [apiStats_names]; exact hkey

/-- C6. In every state reached from the empty one where `c` has a `users` entry with room `r`
and `rooms.get(r)` is the set containing `c` alone, a `leaveRoom` or a `disconnect` from `c`
returns normally with a state in which `r` is no key of `rooms`, `c` has no `users` entry,
`users` holds exactly one entry fewer, and `r` is named neither by `/api/rooms` nor by
`/api/stats`. -/
theorem C6_last_member_leaves (es : List ClientEvent) (c : ConnId) (user : User)
    (e : ClientEvent)
    (hu : JsMap.get (run ServerState.empty es).users c = some user)
    (hr : JsMap.get (run ServerState.empty es).rooms user.room = some [c])
    (he : e = .leaveRoom c ∨ e = .disconnect c) :
    ∃ s1 out, handle (run ServerState.empty es) e = .ok (s1, out)
      ∧ JsMap.has s1.rooms user.room = false
      ∧ JsMap.get s1.users c = none
      ∧ s1.users.length + 1 = (run ServerState.empty es).users.length
      ∧ user.room ∉ (apiRooms s1).map RoomListing.name
      ∧ user.room ∉ (apiStats s1).rooms.map RoomStat.name := by
  have inv := presenceInv_reach es
  rcases he with rfl | rfl
  · exact ⟨_, _, rfl, leave_sole_member (run ServerState.empty es) c user inv hu hr⟩
  · exact ⟨_, _, rfl,
      leave_sole_member
        { run ServerState.empty es with subs := socketLeaveAll (run ServerState.empty es).subs c }
        c user inv hu hr⟩

/-- C6 at the scenario of the specification: A joins "general" and disconnects; both maps are
empty afterwards. -/
theorem C6_last_member_leaves_witness :
    (JsMap.get (run ServerState.empty [aliceJoins]).users "A" = some ⟨"A", "alice", "general"⟩
      ∧ JsMap.get (run ServerState.empty [aliceJoins]).rooms "general" = some ["A"])
    ∧ (∃ s1 out, handle (run ServerState.empty [aliceJoins]) (.disconnect "A") = .ok (s1, out)
        ∧ JsMap.has s1.rooms "general" = false
        ∧ JsMap.get s1.users "A" = none
        ∧ s1.users.length + 1 = (run ServerState.empty [aliceJoins]).users.length
        ∧ "general" ∉ (apiRooms s1).map RoomListing.name
        ∧ "general" ∉ (apiStats s1).rooms.map RoomStat.name)
    ∧ (run ServerState.empty [aliceJoins, .disconnect "A"]).users = []
    ∧ (run ServerState.empty [aliceJoins, .disconnect "A"]).rooms = [] :=
  ⟨⟨by decide, by decide⟩,
    C6_last_member_leaves [aliceJoins] "A" ⟨"A", "alice", "general"⟩ (.disconnect "A")
      (by decide) (by decide) (Or.inr rfl),
    by decide, by decide⟩

/-! ## The member list after a join (C7) -/

theorem filter_filterMap_absent (l : List ConnId) (f : ConnId → Option RoomUser) (a : ConnId)
    (ha : a ∉ l) (hf : ∀ x, x ≠ a → ∀ y, f x = some y → y.id ≠ a) :
    (l.filterMap f).filter (fun y => decide (y.id = a)) = [] := by
  rw [List.filter_eq_nil_iff]
  intro y hy
  obtain ⟨x, hx, hfx⟩ := List.mem_filterMap.1 hy
  have hne : x ≠ a := fun h => ha (h ▸ hx)
  simpa using hf x hne y hfx

theorem filter_filterMap_single (l : List ConnId) (f : ConnId → Option RoomUser) (a : ConnId)
    (v : RoomUser) (hn : l.Nodup) (ha : a ∈ l) (hfa : f a = some v) (hv : v.id = a)
    (hf : ∀ x, x ≠ a → ∀ y, f x = some y → y.id ≠ a) :
    (l.filterMap f).filter (fun y => decide (y.id = a)) = [v] := by
  induction l with
  | nil => simp at ha
  | cons x rest ih =>
    have hn2 : x ∉ rest ∧ rest.Nodup := by simpa using hn
    by_cases hx : x = a
    · subst hx
      have hrest := filter_filterMap_absent rest f x hn2.1 hf
      simp [List.filterMap_cons, hfa, List.filter_cons, hv, hrest]
    · have ha2 : a ∈ rest := by
        rcases List.mem_cons.1 ha with h1 | h1
        · exact absurd h1.symm hx
        · exact h1
      have hrest := ih hn2.2 ha2
      cases hfx : f x with
      | none => simp [List.filterMap_cons, hfx, hrest]
      | some y =>
        have hy := hf x hx y hfx
        simp [List.filterMap_cons, hfx, List.filter_cons, hy, hrest]

/-- C7. On the empty state, `joinRoom` with username `u` and room `r` from connection `a`
makes `getRoomUsers(r)` the one-element list holding `a` with username `u`. On every state
reached from the empty one, after that `joinRoom` the entries of `getRoomUsers(r)` whose id is
`a` are exactly one entry, with username `u`. -/
theorem C7_member_list_after_join :
    (∀ (a : ConnId) (u : String) (r : RoomName) (t : String),
      getRoomUsers (joinRoom ServerState.empty a u r t).1 r = [⟨a, u⟩])
    ∧ (∀ (es : List ClientEvent) (a : ConnId) (u : String) (r : RoomName) (t : String),
      (getRoomUsers (joinRoom (run ServerState.empty es) a u r t).1 r).filter
        (fun y => decide (y.id = a)) = [⟨a, u⟩]) := by
  constructor
  · intro a u r t
    simp [getRoomUsers, joinRoom, ServerState.empty, members, JsMap.get, JsMap.set, JsMap.has,
      JsSet.add]
  · intro es a u r t
    have inv := presenceInv_join (presenceInv_reach es) a u r
    have hmem : members (joinRoom (run ServerState.empty es) a u r t).1.rooms r
        = JsSet.add (members (run ServerState.empty es).rooms r) a := by
      rw [joinRoom_rooms]
      exact members_of_get (roomsAfterJoin_get_self _ _ _)
    unfold getRoomUsers
    rw [hmem, joinRoom_users]
    apply filter_filterMap_single _ _ a ⟨a, u⟩
    · exact JsSet.nodup_add _ _ (members_nodup (presenceInv_reach es) r)
    · exact (JsSet.mem_add _ _ _).2 (Or.inr rfl)
    · simp [JsMap.get_set_self]
    · rfl
    · intro x hx y hy
      cases hg : JsMap.get (JsMap.set (run ServerState.empty es).users a ⟨a, u, r⟩) x with
      | none => simp [hg] at hy
      | some u2 =>
        simp only [hg, Option.some.injEq] at hy
        have hid := inv.userId x u2 hg
        rw [← hy]
        simpa [hid] using hx

/-! ## Who receives room events (C9) -/

/-- C9, evaluated where it fails. A and B join "general" and A sends `leaveRoom`:
`handleUserLeave` removes A from `rooms.get("general")` but never unsubscribes the socket, so
the `roomUsers` event of that very leave is delivered to A, and B's later "hi" is delivered to
A and B although `rooms.get("general")` holds B alone. Likewise, when A re-joins "random"
instead of leaving, A's `users` entry has room "random" and A still receives B's message to
"general". -/
theorem C9_left_connection_still_receives :
    handle (run ServerState.empty [aliceJoins, bobJoins]) (.leaveRoom "A")
      = .ok (run ServerState.empty [aliceJoins, bobJoins, .leaveRoom "A"],
          [⟨["B"], .userLeft "alice" [⟨"B", "bob"⟩]⟩,
           ⟨["A", "B"], .roomUsers "general" [⟨"B", "bob"⟩]⟩])
    ∧ members (run ServerState.empty [aliceJoins, bobJoins, .leaveRoom "A"]).rooms "general"
        = ["B"]
    ∧ handle (run ServerState.empty [aliceJoins, bobJoins, .leaveRoom "A"]) bobSaysHi
      = .ok (run ServerState.empty [aliceJoins, bobJoins, .leaveRoom "A"],
          [⟨["A", "B"], .message "bob" "hi" "10:00:05"⟩])
    ∧ JsMap.get (run ServerState.empty [aliceJoins, bobJoins, aliceRejoins]).users "A"
        = some ⟨"A", "alice", "random"⟩
    ∧ handle (run ServerState.empty [aliceJoins, bobJoins, aliceRejoins]) bobSaysHi
      = .ok (run ServerState.empty [aliceJoins, bobJoins, aliceRejoins],
          [⟨["A", "B"], .message "bob" "hi" "10:00:05"⟩]) :=
  ⟨rfl, by decide, rfl, by decide, rfl⟩

/-! ## Sequences without a re-join (C10) -/

theorem apiStats_sum (rooms : List (RoomName × List ConnId)) (hk : (JsMap.keys rooms).Nodup) :
    (((JsMap.keys rooms).map (fun room => (⟨room,
        match JsMap.get rooms room with
        | some set => set.length
        | none => 0⟩ : RoomStat))).map RoomStat.userCount).sum = totalMembers rooms := by
  induction rooms with
  | nil => rfl
  | cons e rest ih =>
    obtain ⟨k1, v1⟩ := e
    have hk2 : k1 ∉ JsMap.keys rest ∧ (JsMap.keys rest).Nodup := by
      simpa [JsMap.keys] using hk
    have hrest : ∀ room ∈ JsMap.keys rest,
        JsMap.get ((k1, v1) :: rest) room = JsMap.get rest room := by
      intro room hroom
      have hne : k1 ≠ room := fun h => hk2.1 (h ▸ hroom)
      simp [JsMap.get, hne]
    have ih2 := ih hk2.2
    simp only [List.map_map, totalMembers] at ih2 ⊢
    simp only [JsMap.keys, List.map_cons, List.sum_cons, Function.comp_apply, JsMap.get,
      if_true]
    congr 1
    rw [← ih2]
    congr 1
    apply List.map_congr_left
    intro room hroom
    have := hrest room hroom
    simp only [JsMap.get] at this
    simp only [Function.comp_apply, this]

/-- C10. After any sequence of events from the empty state in which `joinRoom` is only sent by
connections that have no `users` entry at that moment (every prefix of such a sequence is such
a sequence, so this covers the state after every event): `c` is in `rooms.get(r)` exactly when
`users` has an entry for `c` with room `r`; no connection is in two member sets; and
`totalUsers` of `/api/stats` is the sum of the `userCount` fields it reports. -/
theorem C10_no_rejoin_consistency (es : List ClientEvent)
    (hnr : noRejoin ServerState.empty es = true) :
    (∀ c r, c ∈ members (run ServerState.empty es).rooms r
        ↔ ∃ u, JsMap.get (run ServerState.empty es).users c = some u ∧ u.room = r)
    ∧ (∀ c r1 r2, c ∈ members (run ServerState.empty es).rooms r1 →
        c ∈ members (run ServerState.empty es).rooms r2 → r1 = r2)
    ∧ (apiStats (run ServerState.empty es)).totalUsers
        = ((apiStats (run ServerState.empty es)).rooms.map RoomStat.userCount).sum := by
  have inv := presenceInv_reach es
  have str := strictInv_reach es hnr
  refine ⟨?_, ?_, ?_⟩
  · intro c r
    constructor
    · exact str.memberHasUser c r
    · rintro ⟨u, hu, hroom⟩
      exact hroom ▸ inv.userInRoom c u hu
  · intro c r1 r2 h1 h2
    obtain ⟨u1, hu1, hr1⟩ := str.memberHasUser c r1 h1
    obtain ⟨u2, hu2, hr2⟩ := str.memberHasUser c r2 h2
    rw [hu1] at hu2
    cases hu2
    exact hr1.symm.trans hr2
  · show (run ServerState.empty es).users.length = _
    rw [str.count]
    exact (apiStats_sum _ inv.roomsKeys).symm

/-- C10 on a run of five events: A and B join "general", C joins "random", A leaves and joins
"random". -/
theorem C10_no_rejoin_consistency_witness :
    noRejoin ServerState.empty [aliceJoins, bobJoins, carolJoins, .leaveRoom "A", aliceRejoins]
        = true
    ∧ ((∀ c r, c ∈ members (run ServerState.empty
            [aliceJoins, bobJoins, carolJoins, .leaveRoom "A", aliceRejoins]).rooms r
          ↔ ∃ u, JsMap.get (run ServerState.empty
            [aliceJoins, bobJoins, carolJoins, .leaveRoom "A", aliceRejoins]).users c = some u
              ∧ u.room = r)
      ∧ (∀ c r1 r2, c ∈ members (run ServerState.empty
            [aliceJoins, bobJoins, carolJoins, .leaveRoom "A", aliceRejoins]).rooms r1 →
          c ∈ members (run ServerState.empty
            [aliceJoins, bobJoins, carolJoins, .leaveRoom "A", aliceRejoins]).rooms r2 → r1 = r2)
      ∧ (apiStats (run ServerState.empty
            [aliceJoins, bobJoins, carolJoins, .leaveRoom "A", aliceRejoins])).totalUsers
          = ((apiStats (run ServerState.empty
            [aliceJoins, bobJoins, carolJoins, .leaveRoom "A", aliceRejoins])).rooms.map
              RoomStat.userCount).sum)
    ∧ apiStats (run ServerState.empty
          [aliceJoins, bobJoins, carolJoins, .leaveRoom "A", aliceRejoins])
        = ⟨3, 2, [⟨"general", 1⟩, ⟨"random", 2⟩]⟩ :=
  ⟨by decide,
    C10_no_rejoin_consistency [aliceJoins, bobJoins, carolJoins, .leaveRoom "A", aliceRejoins]
      (by decide),
    by decide⟩

/-! ## Typing debounce on the client (C8) -/

theorem typingMarks_append (l1 l2 : List ClientOut) :
    typingMarks (l1 ++ l2) = typingMarks l1 ++ typingMarks l2 := by
  simp [typingMarks, List.filterMap_append]

theorem step_marks (a : ChatApp) (st : ClientStep) :
    (typingMarks (a.step st).2 = [] ∧ (a.step st).1.isTyping = a.isTyping)
    ∨ (typingMarks (a.step st).2 = [!a.isTyping] ∧ (a.step st).1.isTyping = !a.isTyping) := by
  obtain ⟨u, r, it, cn, tp⟩ := a
  cases st with
  | keystroke => cases it <;> cases cn <;> simp [ChatApp.step, ChatApp.handleTyping, typingMarks]
  | timerExpiry =>
    cases it <;> cases cn <;> cases tp <;> simp [ChatApp.step, ChatApp.stopTyping, typingMarks]
  | sendMessage message time =>
    by_cases hm : message = ""
    · simp [ChatApp.step, ChatApp.sendMessage, hm, typingMarks]
    · cases it <;> cases cn <;>
        simp [ChatApp.step, ChatApp.sendMessage, ChatApp.stopTyping, hm, typingMarks]
  | connect => simp [ChatApp.step, typingMarks]
  | disconnect => simp [ChatApp.step, typingMarks]

theorem run_alternating (steps : List ClientStep) (a : ChatApp) :
    alternating (!a.isTyping) (typingMarks (a.run steps).2) = true := by
  induction steps generalizing a with
  | nil => simp [ChatApp.run, typingMarks, alternating]
  | cons st rest ih =>
    have hrest := ih (a.step st).1
    simp only [ChatApp.run, typingMarks_append]
    rcases step_marks a st with ⟨h1, h2⟩ | ⟨h1, h2⟩
    · rw [h1, List.nil_append, ← h2]
      exact hrest
    · rw [h1, List.singleton_append]
      rw [h2, Bool.not_not] at hrest
      simp [alternating, hrest]

theorem typing_only_on_idle_keystroke (b : ChatApp) (st : ClientStep) (u r : String)
    (h : ClientOut.typing u r ∈ (b.step st).2) :
    st = .keystroke ∧ b.isTyping = false ∧ b.connected = true := by
  obtain ⟨u0, r0, it, cn, tp⟩ := b
  cases st with
  | keystroke =>
    cases it <;> cases cn <;> simp [ChatApp.step, ChatApp.handleTyping] at h ⊢
  | timerExpiry =>
    cases it <;> cases cn <;> cases tp <;> simp [ChatApp.step, ChatApp.stopTyping] at h
  | sendMessage message time =>
    by_cases hm : message = ""
    · simp [ChatApp.step, ChatApp.sendMessage, hm] at h
    · cases it <;> cases cn <;>
        simp [ChatApp.step, ChatApp.sendMessage, ChatApp.stopTyping, hm] at h
  | connect => simp [ChatApp.step] at h
  | disconnect => simp [ChatApp.step] at h

theorem mem_typingMarks_false (out : List ClientOut) :
    false ∈ typingMarks out ↔ ∃ r, ClientOut.stopTyping r ∈ out := by
  unfold typingMarks
  rw [List.mem_filterMap]
  constructor
  · rintro ⟨o, ho, hf⟩
    cases o with
    | typing u r => simp at hf
    | stopTyping r => exact ⟨r, ho⟩
    | chatMessage u m r t => simp at hf
    | displayOwn u m r t => simp at hf
  · rintro ⟨r, hr⟩
    exact ⟨_, hr, rfl⟩

theorem alternating_no_false (l : List Bool) (h : alternating true l = true)
    (hf : false ∉ l) : l.count true ≤ 1 := by
  cases l with
  | nil => simp
  | cons x xs =>
    cases xs with
    | nil => cases x <;> simp
    | cons y ys =>
      cases x <;> cases y <;> simp [alternating] at h hf

theorem keystrokes_silent (n : Nat) (a : ChatApp)
    (h : a.isTyping = true ∨ a.connected = false) :
    (a.run (List.replicate n .keystroke)).2 = [] := by
  induction n generalizing a with
  | zero => rfl
  | succ n ih =>
    obtain ⟨u, r, it, cn, tp⟩ := a
    simp only [List.replicate_succ, ChatApp.run]
    rcases h with h | h
    · simp only at h
      subst h
      have := ih (ChatApp.step ⟨u, r, true, cn, tp⟩ .keystroke).1 (Or.inl (by
        simp [ChatApp.step, ChatApp.handleTyping]))
      rw [this]
      simp [ChatApp.step, ChatApp.handleTyping]
    · simp only at h
      subst h
      have := ih (ChatApp.step ⟨u, r, it, false, tp⟩ .keystroke).1 (Or.inr (by
        simp [ChatApp.step, ChatApp.handleTyping]))
      rw [this]
      simp [ChatApp.step, ChatApp.handleTyping]

/-- C8 as stated fails. A client with no live connection (demo mode) is idle, takes three
keystrokes with no `stopTyping` emitted in between, and emits no `typing` at all, where the
claim has exactly one: `handleTyping` emits only under `this.socket && this.socket.connected`. -/
theorem C8_demo_mode_keystrokes_emit_nothing :
    demoClient.isTyping = false
    ∧ (demoClient.run [.keystroke, .keystroke, .keystroke]).2 = []
    ∧ (typingMarks (demoClient.run [.keystroke, .keystroke, .keystroke]).2).count true = 0 := by
  decide

/-- C8, amended. A step emits `typing` only if it is a keystroke taken while `isTyping` is
false and the socket is connected. In every trace from a state with `isTyping` false, the
emitted `typing` and `stopTyping` events strictly alternate beginning with `typing`; a trace
in which no `stopTyping` is emitted has at most one `typing`; and `n` keystrokes in a row emit
exactly one `typing` when the client is connected and `n` is not zero, and none otherwise. -/
theorem C8_typing_debounce (a : ChatApp) (steps : List ClientStep) (h0 : a.isTyping = false) :
    (∀ (b : ChatApp) (st : ClientStep) (u r : String),
        ClientOut.typing u r ∈ (b.step st).2 →
          st = .keystroke ∧ b.isTyping = false ∧ b.connected = true)
    ∧ alternating true (typingMarks (a.run steps).2) = true
    ∧ ((∀ r, ClientOut.stopTyping r ∉ (a.run steps).2) →
        (typingMarks (a.run steps).2).count true ≤ 1)
    ∧ (∀ n : Nat, typingMarks (a.run (List.replicate n .keystroke)).2
        = if a.connected = true ∧ n ≠ 0 then [true] else []) := by
  have halt : alternating true (typingMarks (a.run steps).2) = true := by
    have := run_alternating steps a
    rwa [h0] at this
  refine ⟨typing_only_on_idle_keystroke, halt, ?_, ?_⟩
  · intro hno
    apply alternating_no_false _ halt
    rw [mem_typingMarks_false]
    rintro ⟨r, hr⟩
    exact hno r hr
  · intro n
    cases n with
    | zero => simp [ChatApp.run, typingMarks]
    | succ n =>
      obtain ⟨u, r, it, cn, tp⟩ := a
      simp only at h0
      subst h0
      cases cn with
      | false =>
        rw [keystrokes_silent (n + 1) _ (Or.inr rfl)]
        simp [typingMarks]
      | true =>
        simp only [List.replicate_succ, ChatApp.run]
        rw [keystrokes_silent n _ (Or.inl (by simp [ChatApp.step, ChatApp.handleTyping]))]
        simp [ChatApp.step, ChatApp.handleTyping, typingMarks]

/-- C8 on a session of a connected client: the emissions are `typing`, `stopTyping`, `typing`,
the chat message, `stopTyping`, `typing`. -/
theorem C8_typing_debounce_witness :
    liveClient.isTyping = false
    ∧ ((∀ (b : ChatApp) (st : ClientStep) (u r : String),
          ClientOut.typing u r ∈ (b.step st).2 →
            st = .keystroke ∧ b.isTyping = false ∧ b.connected = true)
      ∧ alternating true (typingMarks (liveClient.run sampleSession).2) = true
      ∧ ((∀ r, ClientOut.stopTyping r ∉ (liveClient.run sampleSession).2) →
          (typingMarks (liveClient.run sampleSession).2).count true ≤ 1)
      ∧ (∀ n : Nat, typingMarks (liveClient.run (List.replicate n .keystroke)).2
          = if liveClient.connected = true ∧ n ≠ 0 then [true] else []))
    ∧ (liveClient.run sampleSession).2
        = [.typing "bob" "general", .stopTyping "general", .typing "bob" "general",
            .chatMessage "bob" "hi" "general" "10:00:05", .stopTyping "general",
            .typing "bob" "general"] :=
  ⟨rfl, C8_typing_debounce liveClient sampleSession rfl, by decide⟩

end Chat
